import Mathlib

/-!
Verification development for the YouTubeTranscriber bot (src/bot.py).

The embedding works on `List Char`.  Python's `re` operations used by the
source are modelled character by character with their backtracking
semantics:

* `re.sub(r'</?(?!(?:b|i|u|strong|em|code|pre)\b)[^>]*>', '', text)`
  (HTMLCleaner.clean, first pass).  At a position holding `'<'` the engine
  first tries to consume an optional `'/'`; if the negative lookahead then
  fails (the text after `</` starts with an allow-listed name followed by a
  word boundary) it backtracks and retries without consuming the `'/'`, at
  which point the lookahead sees the `'/'` itself and always succeeds.
  Consequently a match starting at `'<'` exists exactly when some `'>'`
  occurs later and either the next character is `'/'` or the following text
  does not start with an allow-listed name at a word boundary; the match
  always extends through the first subsequent `'>'`.  The source compiles
  the pattern without `re.ASCII`, so its `\b` uses the Unicode word class;
  the model's word class is ASCII `[A-Za-z0-9_]`, which agrees with
  Python's on ASCII text (and on every tag name involved).  Statements
  about which tags survive stripping are therefore made on ASCII inputs
  (`itemASCIIB`), where the model speaks for the program; on non-ASCII
  inputs the program can only strip more than the model does.
* `re.finditer(r'<([a-z]+)[^>]*>', text)` (second pass): a match starts at
  `'<'` when the next character is an ASCII lowercase letter and a `'>'`
  occurs later; the captured group is the maximal lowercase run and the
  match extends through the first `'>'`.
* `re.finditer(r'</([a-z]+)>', text)` (third pass): a match is exactly
  `'<' '/'` followed by a non-empty lowercase run and an immediate `'>'`.
  Because a matched span contains no internal `'<'`, advancing one
  character after a match recognises the same match set as skipping the
  whole span, which keeps the recursion structural.

Skipping of a matched span is realised by a Boolean mode (`true` = inside a
match, consuming up to and including the next `'>'`), so every function is
structurally recursive and evaluates by `decide`.
-/

/-- The allow-list `HTMLCleaner.ALLOWED_TAGS = {b, i, u, strong, em, code, pre}`. -/
def ALLOWED : List (List Char) :=
  [String.toList "b", String.toList "i", String.toList "u",
   String.toList "strong", String.toList "em", String.toList "code",
   String.toList "pre"]

/-- Membership in the allow-list, as a Boolean. -/
def allowedB (n : List Char) : Bool := decide (n ∈ ALLOWED)

/-- ASCII word character, the class `\w` of the stripping regex's `\b`. -/
def isWordCharB (c : Char) : Bool := c.isAlphanum || c == '_'

/-- Boolean list-prefix test (used to model the regex literal alternatives). -/
def prefixB : List Char → List Char → Bool
  | [], _ => true
  | _ :: _, [] => false
  | c :: t, d :: r => (c == d) && prefixB t r

/-- Word boundary after a just-matched word: next character absent or non-word. -/
def bdryB : List Char → Bool
  | [] => true
  | c :: _ => !(isWordCharB c)

/-- The lookahead body `(?:b|i|u|strong|em|code|pre)\b` succeeds on `r`. -/
def startsAllowedB (r : List Char) : Bool :=
  ALLOWED.any (fun t => prefixB t r && bdryB (r.drop t.length))

/-- Whether the stripping regex matches at a `'<'` whose remainder is `rest`
(see the header comment for the backtracking analysis). -/
def stripMatchB (rest : List Char) : Bool :=
  decide ('>' ∈ rest) &&
    (if rest.head? = some '/' then true else !startsAllowedB rest)

/-- One left-to-right pass of `re.sub(pattern, '', text)`: mode `false`
copies characters and tests for a match at each `'<'`; mode `true` is inside
a match, discarding characters up to and including the next `'>'`. -/
def stripGo : Bool → List Char → List Char
  | _, [] => []
  | true, c :: rest => if c == '>' then stripGo false rest else stripGo true rest
  | false, c :: rest =>
      if c == '<' && stripMatchB rest then stripGo true rest
      else c :: stripGo false rest

/-- First pass of `HTMLCleaner.clean`: remove every regex match. -/
def stripTags (s : List Char) : List Char := stripGo false s

/-- Whether `<([a-z]+)[^>]*>` matches at a `'<'` whose remainder is `rest`. -/
def openMatchB (rest : List Char) : Bool :=
  (match rest with
   | c :: _ => c.isLower
   | [] => false) && decide ('>' ∈ rest)

/-- Second pass of `HTMLCleaner.clean`: collect, in text order, the captured
group of every `<([a-z]+)[^>]*>` match whose name is allow-listed (the
source appends only allow-listed names to `opened_tags`).  Mode `true`
consumes the remainder of a match up to and including the next `'>'`. -/
def opensGo : Bool → List Char → List (List Char)
  | _, [] => []
  | true, c :: rest => if c == '>' then opensGo false rest else opensGo true rest
  | false, c :: rest =>
      if c == '<' && openMatchB rest then
        (if allowedB (rest.takeWhile Char.isLower) then [rest.takeWhile Char.isLower] else [])
          ++ opensGo true rest
      else opensGo false rest

/-- The `opened_tags` list built by the second pass. -/
def collectOpens (s : List Char) : List (List Char) := opensGo false s

/-- The captured group of a `</([a-z]+)>` match at a `'<'` whose remainder
is `rest`, if any. -/
def closeTokOf (rest : List Char) : Option (List Char) :=
  if rest.head? = some '/' then
    (if !(rest.tail.takeWhile Char.isLower == []) &&
        ((rest.tail.drop (rest.tail.takeWhile Char.isLower).length).head? == some '>') then
      some (rest.tail.takeWhile Char.isLower)
     else none)
  else none

/-- Third pass of `HTMLCleaner.clean`: collect, in text order, the captured
group of every `</([a-z]+)>` match (a matched span has no internal `'<'`,
so advancing one character after a match is equivalent to skipping it). -/
def closesGo : List Char → List (List Char)
  | [] => []
  | c :: rest =>
      (if c == '<' then (closeTokOf rest).toList else []) ++ closesGo rest

/-- The closing-tag names seen by the third pass. -/
def collectCloses (s : List Char) : List (List Char) := closesGo s

/-- The third pass's effect on `opened_tags`: for each closing-tag name, pop
the last element exactly when the name is allow-listed and equals it. -/
def processCloses (opened : List (List Char)) (closes : List (List Char)) : List (List Char) :=
  closes.foldl
    (fun st tag =>
      if allowedB tag && st ≠ [] && st.getLast? == some tag then st.dropLast else st)
    opened

/-- Render `</t>` for each name of a stack whose head opened last. -/
def closersOf : List (List Char) → List Char
  | [] => []
  | n :: r => ('<' :: '/' :: (n ++ ['>'])) ++ closersOf r

/-- Final pass of `HTMLCleaner.clean`: append `</tag>` for every name still
in `opened_tags`, in reverse order. -/
def closersFor (opened : List (List Char)) : List Char := closersOf opened.reverse

/-- `HTMLCleaner.clean`, assembled exactly as in the source: strip, collect
opening tags, process closing tags, append the remaining closers. -/
def clean (s : List Char) : List Char :=
  stripTags s ++
    closersFor (processCloses (collectOpens (stripTags s)) (collectCloses (stripTags s)))

/-- A markup token of the output: an opening tag with its name and verbatim
attribute text, or a closing tag with its name. -/
inductive Tok where
  | openTok (name attrs : List Char)
  | closeTok (name : List Char)
deriving DecidableEq

/-- The name carried by a token. -/
def tokName : Tok → List Char
  | .openTok n _ => n
  | .closeTok n => n

/-- Left-to-right tokenizer for tag structure: `</name>` is a closing tag;
`<name …>` with a lowercase name and a later `'>'` is an opening tag whose
attribute text runs to the first `'>'`; any other `'<'` is plain text.
Mode `true` consumes the remainder of an opening tag. -/
def tokGo : Bool → List Char → List Tok
  | _, [] => []
  | true, c :: rest => if c == '>' then tokGo false rest else tokGo true rest
  | false, c :: rest =>
      if c == '<' then
        match closeTokOf rest with
        | some n => Tok.closeTok n :: tokGo false rest
        | none =>
            if openMatchB rest then
              Tok.openTok (rest.takeWhile Char.isLower)
                  ((rest.dropWhile Char.isLower).takeWhile (fun d => !(d == '>')))
                :: tokGo true rest
            else tokGo false rest
      else tokGo false rest

/-- The tag tokens of a string. -/
def tagTokens (s : List Char) : List Tok := tokGo false s

/-- One step of the strict nesting checker: push on open, pop on a close
matching the top of the stack, fail otherwise. -/
def balStep : Option (List (List Char)) → Tok → Option (List (List Char))
  | none, _ => none
  | some st, .openTok n _ => some (n :: st)
  | some st, .closeTok n =>
      match st with
      | [] => none
      | m :: st2 => if m == n then some st2 else none

/-- A token sequence is stack-balanced: the checker ends with an empty stack. -/
def balToks (toks : List Tok) : Bool :=
  decide (toks.foldl balStep (some []) = some [])

/-- Number of opening tokens with a given name. -/
def countOpen (t : List Char) (toks : List Tok) : Nat :=
  toks.countP (fun tok => match tok with | .openTok n _ => n == t | _ => false)

/-- Number of closing tokens with a given name. -/
def countClose (t : List Char) (toks : List Tok) : Nat :=
  toks.countP (fun tok => match tok with | .closeTok n => n == t | _ => false)

/-- For every allow-listed name, opening and closing tokens are equinumerous. -/
def countsBalanced (toks : List Tok) : Bool :=
  ALLOWED.all (fun t => countOpen t toks == countClose t toks)

/-- Modelled from the spec (sections 4.5 step 1): strip every complete tag
whose tag name (the leading lowercase run after an optional `'/'`) is not in
the allow-list, keeping allow-listed tags — opening and closing alike —
verbatim.  Mode `some k` is inside a tag: `k` tells whether it is kept. -/
def specGo : Option Bool → List Char → List Char
  | _, [] => []
  | some k, c :: rest =>
      if c == '>' then (if k then ['>'] else []) ++ specGo none rest
      else (if k then [c] else []) ++ specGo (some k) rest
  | none, c :: rest =>
      if c == '<' && decide ('>' ∈ rest) then
        (if allowedB ((match rest.takeWhile (fun d => !(d == '>')) with
                       | '/' :: r => r
                       | r => r).takeWhile Char.isLower) then
          '<' :: specGo (some true) rest
         else specGo (some false) rest)
      else c :: specGo none rest

/-- Modelled from the spec: the surviving text of the spec's stripping step. -/
def specStrip (s : List Char) : List Char := specGo none s

/-- Modelled from the spec (section 4.5 step 2): one step of the single
left-to-right scan — push an allow-listed opening tag, pop a closing tag
only when it equals the stack top, otherwise leave the stack unchanged. -/
def scanStep (st : List (List Char)) (tok : Tok) : List (List Char) :=
  match tok with
  | .openTok n _ => if allowedB n then n :: st else st
  | .closeTok n =>
      if allowedB n then
        match st with
        | m :: st2 => if m == n then st2 else m :: st2
        | [] => []
      else st

/-- Modelled from the spec (section 4.5): the sanitizer the specification
describes — a single left-to-right scan of the text surviving the spec's
tag stripping, with the surviving text left in place and a closing tag
appended for every name still open, innermost first. -/
def cleanSpecScan (s : List Char) : List Char :=
  specStrip s ++ closersOf ((tagTokens (specStrip s)).foldl scanStep [])

/-- A markup item: plain text, an opening tag `<name attrs>`, or a closing
tag `</name>`. -/
inductive Item where
  | txt (s : List Char)
  | openT (name attrs : List Char)
  | closeT (name : List Char)
deriving DecidableEq

/-- Render an item back to text. -/
def renderItem : Item → List Char
  | .txt s => s
  | .openT n a => '<' :: (n ++ a ++ ['>'])
  | .closeT n => '<' :: '/' :: (n ++ ['>'])

/-- Render an item list. -/
def render : List Item → List Char
  | [] => []
  | it :: r => renderItem it ++ render r

/-- Well-formedness: text holds no angle bracket; a tag name is a non-empty
lowercase run; attribute text holds no angle bracket and starts with a
non-word character (so the name ends at a word boundary). -/
def itemWFB : Item → Bool
  | .txt s => s.all (fun c => !(c == '<') && !(c == '>'))
  | .openT n a =>
      !(n == []) && n.all Char.isLower &&
      a.all (fun c => !(c == '<') && !(c == '>')) &&
      (match a with | [] => true | c :: _ => !(isWordCharB c))
  | .closeT n => !(n == []) && n.all Char.isLower

/-- All items well formed. -/
def wfItemsB (l : List Item) : Bool := l.all itemWFB

/-- Which items the stripping pass keeps: text and allow-listed opening tags. -/
def keepB : Item → Bool
  | .txt _ => true
  | .openT n _ => allowedB n
  | .closeT _ => false

/-- The items surviving the stripping pass. -/
def keep (l : List Item) : List Item := l.filter keepB

/-- Names of the allow-listed opening tags, in order. -/
def openNamesOf : List Item → List (List Char)
  | [] => []
  | .openT n _ :: r => if allowedB n then n :: openNamesOf r else openNamesOf r
  | _ :: r => openNamesOf r

/-- Name/attribute pairs of the allow-listed opening tags, in order. -/
def openPairsOf : List Item → List (List Char × List Char)
  | [] => []
  | .openT n a :: r => if allowedB n then (n, a) :: openPairsOf r else openPairsOf r
  | _ :: r => openPairsOf r

/-- The token an item denotes, if any. -/
def itemTok : Item → Option Tok
  | .txt _ => none
  | .openT n a => some (.openTok n a)
  | .closeT n => some (.closeTok n)

/-- Stack checker for item sequences: every tag allow-listed, every closing
tag matching the innermost open one, nothing left open. -/
def itemsBalancedAux : List Item → List (List Char) → Bool
  | [], st => decide (st = [])
  | .txt _ :: r, st => itemsBalancedAux r st
  | .openT n _ :: r, st => allowedB n && itemsBalancedAux r (n :: st)
  | .closeT n :: r, st =>
      match st with
      | [] => false
      | m :: st2 => (m == n) && itemsBalancedAux r st2

/-- The item sequence consists of balanced allow-listed tags. -/
def itemsBalanced (l : List Item) : Bool := itemsBalancedAux l []

/-- The item sequence contains a tag whose name is outside the allow-list. -/
def hasDisallowedB (l : List Item) : Bool :=
  l.any (fun it =>
    match it with
    | .txt _ => false
    | .openT n _ => !allowedB n
    | .closeT n => !allowedB n)

/-- The character class `[0-9A-Za-z_-]` of the video-id patterns. -/
def idCharB (c : Char) : Bool := c.isAlphanum || c == '_' || c == '-'

/-- Match of `(?:v=|\/)([0-9A-Za-z_-]{11}).*` anchored at the head of `l`:
either branch of the alternation followed by exactly eleven id characters
(the trailing `.*` always succeeds). -/
def p1At : List Char → Option (List Char)
  | 'v' :: '=' :: r =>
      if (r.take 11).length == 11 && (r.take 11).all idCharB then some (r.take 11) else none
  | '/' :: r =>
      if (r.take 11).length == 11 && (r.take 11).all idCharB then some (r.take 11) else none
  | _ => none

/-- `re.search` of the first pattern: leftmost anchored match. -/
def p1Search : List Char → Option (List Char)
  | [] => none
  | c :: rest =>
      match p1At (c :: rest) with
      | some v => some v
      | none => p1Search rest

/-- Match of `(?:youtu\.be\/)([0-9A-Za-z_-]{11})` anchored at the head. -/
def p2At (l : List Char) : Option (List Char) :=
  if prefixB (String.toList "youtu.be/") l then
    (if ((l.drop 9).take 11).length == 11 && ((l.drop 9).take 11).all idCharB then
      some ((l.drop 9).take 11)
     else none)
  else none

/-- `re.search` of the second pattern: leftmost anchored match. -/
def p2Search : List Char → Option (List Char)
  | [] => none
  | c :: rest =>
      match p2At (c :: rest) with
      | some v => some v
      | none => p2Search rest

/-- `YouTubeTranscriberBot.extract_video_id`: try the patterns in order and
return the first captured group, else `none`. -/
def extractVideoId (url : String) : Option String :=
  match p1Search url.toList with
  | some v => some (String.mk v)
  | none =>
      match p2Search url.toList with
      | some v => some (String.mk v)
      | none => none

/-- One outbound request of `_get_captions`: the captions listing or the
caption-text fetch for a given caption id. -/
inductive ApiCall where
  | listing
  | fetch (cid : Nat)
deriving DecidableEq

/-- The environment `_get_captions` runs against: a possible exception, the
listing response status and items (language, id), the per-caption fetch
status and text, and the retrieval source's translation capability (exposed
by the boundary, whether or not the code uses it). -/
structure CapEnv where
  exc : Option String
  listStatus : Nat
  items : List (String × Nat)
  fetchStatus : Nat → Nat
  fetchText : Nat → String
  translate : String → String → String

/-- Replace the translation capability of an environment. -/
def envWithTranslate (e : CapEnv) (tr : String → String → String) : CapEnv :=
  CapEnv.mk e.exc e.listStatus e.items e.fetchStatus e.fetchText tr

/-- `YouTubeTranscriberBot._get_captions`, paired with the list of outbound
requests it performs: on exception, `(None, str(e))`; on a non-200 listing,
the API-error message; with neither a "ru" nor an "en" item, the not-found
message; otherwise fetch the chosen caption's text, succeeding on 200 and
failing with the fetch-error message otherwise. -/
def getCaptionsLog (env : CapEnv) : (Option String × Option String) × List ApiCall :=
  match env.exc with
  | some m => ((none, some m), [ApiCall.listing])
  | none =>
      if env.listStatus == 200 then
        match (env.items.find? (fun it => it.1 == "ru")) with
        | some cap =>
            if env.fetchStatus cap.2 == 200 then
              ((some (env.fetchText cap.2), none), [ApiCall.listing, ApiCall.fetch cap.2])
            else
              ((none, some ("Ошибка получения текста субтитров: " ++ toString (env.fetchStatus cap.2))),
               [ApiCall.listing, ApiCall.fetch cap.2])
        | none =>
            match (env.items.find? (fun it => it.1 == "en")) with
            | some cap =>
                if env.fetchStatus cap.2 == 200 then
                  ((some (env.fetchText cap.2), none), [ApiCall.listing, ApiCall.fetch cap.2])
                else
                  ((none, some ("Ошибка получения текста субтитров: " ++ toString (env.fetchStatus cap.2))),
                   [ApiCall.listing, ApiCall.fetch cap.2])
            | none => ((none, some "Субтитры не найдены"), [ApiCall.listing])
      else ((none, some ("Ошибка API: " ++ toString env.listStatus)), [ApiCall.listing])

/-- The `(transcript, error)` pair `_get_captions` returns. -/
def getCaptions (env : CapEnv) : Option String × Option String :=
  (getCaptionsLog env).1

/-- The per-conversation context: `context.chat_data` keyed by chat id,
holding the optional `transcript` and `video_id` entries. -/
def Store : Type := Nat → Option String × Option String

/-- The state before any video has been processed anywhere. -/
def emptyStore : Store := fun _ => (none, none)

/-- `_process_youtube_link` lines 278–279: unconditionally assign both the
transcript and the video id for the chat. -/
def setCtx (s : Store) (c : Nat) (t r : String) : Store :=
  fun c2 => if c2 == c then (some t, some r) else s c2

/-- `context.chat_data` lookup for a chat. -/
def getCtx (s : Store) (c : Nat) : Option String × Option String := s c

/-- The fixed prompt `_process_question` sends when no transcript is stored. -/
def noTranscriptReply : String := "❌ <b>Сначала отправьте ссылку на YouTube видео!</b>"

/-- `YouTubeTranscriberBot._process_question`: read the stored transcript;
`if not transcript` (absent or empty) reply with the fixed prompt and stop;
otherwise call the answer backend.  The Boolean records whether answer
generation was attempted. -/
def processQuestion (ans : String → String → String) (s : Store) (c : Nat) (q : String) :
    String × Bool :=
  match (getCtx s c).1 with
  | none => (noTranscriptReply, false)
  | some t =>
      if t == "" then (noTranscriptReply, false)
      else ("🤖 <b>Ответ:</b>\n\n" ++ ans q t, true)

/-- Python's `str.strip()` on a character list: drop leading and trailing
whitespace (for a stripped string, being non-empty coincides with the
source's `text and not text.isspace()` test). -/
def pyStripL (l : List Char) : List Char :=
  ((l.dropWhile Char.isWhitespace).reverse.dropWhile Char.isWhitespace).reverse

/-- Python's `str.strip()`. -/
def pyStrip (s : String) : String := String.mk (pyStripL s.toList)

/-- Whether a caption entry is skipped by `_clean_transcript`: it has no
`text` field, or its text is empty or whitespace-only. -/
def entryBlankB : Option String → Bool
  | none => true
  | some t => pyStrip t == ""

/-- `YouTubeTranscriberBot._clean_transcript` on a list of caption entries:
keep, for each entry carrying a `text` field, its stripped text when that
is non-empty, and join with single spaces. -/
def cleanTranscript (entries : List (Option String)) : String :=
  String.intercalate " "
    (entries.filterMap (fun e =>
      match e with
      | none => none
      | some t => if pyStrip t == "" then none else some (pyStrip t)))

/-- The stripped text never places a `'>'` after a `'<' '/'` pair, so the
third pass of `clean` finds nothing. -/
def NoCloseP (l : List Char) : Prop :=
  ∀ x y, l = x ++ '<' :: '/' :: y → '>' ∉ y

/-- A video whose captions are disabled: per the YouTube Data API the
captions listing succeeds with an empty item list. -/
def envDisabled : CapEnv :=
  ⟨none, 200, [], fun _ => 200, fun _ => "", fun a _ => a⟩

/-- A video with captions, none of which is in "ru" or "en". -/
def envNoRuEn : CapEnv :=
  ⟨none, 200, [("fr", 7)], fun _ => 200, fun _ => "", fun a _ => a⟩

/-- A video with only an "en" caption, a working fetch returning "hello",
and a working translation capability whose output differs from its input. -/
def envC5 : CapEnv :=
  ⟨none, 200, [("en", 3)], fun _ => 200, fun _ => "hello", fun _ _ => "privet"⟩

/-- Whether an item is not a closing tag. -/
def notCloseB : Item → Bool
  | .closeT _ => false
  | _ => true

/-- All characters of an item are ASCII.  On ASCII text the model's word
class coincides with Python's `\b`, so the embedding of the stripping regex
is exact there. -/
def itemASCIIB : Item → Bool
  | .txt s => s.all (fun c => decide (c.toNat < 128))
  | .openT n a => n.all (fun c => decide (c.toNat < 128)) &&
      a.all (fun c => decide (c.toNat < 128))
  | .closeT n => n.all (fun c => decide (c.toNat < 128))

/-! ### Basic facts about characters and the allow-list -/

theorem allowed_ne_nil_all_lower : ∀ n ∈ ALLOWED, n ≠ [] ∧ n.all Char.isLower = true := by
  decide

theorem word_of_lower {c : Char} (h : c.isLower = true) : isWordCharB c = true := by
  simp [isWordCharB, Char.isAlphanum, Char.isAlpha, h]

theorem lower_beq_false {c d : Char} (h : c.isLower = true) (hd : d.isLower = false) :
    (c == d) = false := by
  cases hc : c == d
  · rfl
  · have hcd : c = d := beq_iff_eq.mp hc
    subst hcd
    rw [h] at hd
    exact absurd hd (by decide)

theorem not_lower_of_not_word {c : Char} (h : isWordCharB c = false) : c.isLower = false := by
  cases hl : c.isLower
  · rfl
  · rw [word_of_lower hl] at h
    exact absurd h (by decide)

theorem all_and_left {l : List Char} {p q : Char → Bool}
    (h : l.all (fun c => p c && q c) = true) : l.all p = true := by
  rw [List.all_eq_true] at *
  intro c hc
  have hb := h c hc
  simp only [Bool.and_eq_true] at hb
  exact hb.1

theorem all_and_right {l : List Char} {p q : Char → Bool}
    (h : l.all (fun c => p c && q c) = true) : l.all q = true := by
  rw [List.all_eq_true] at *
  intro c hc
  have hb := h c hc
  simp only [Bool.and_eq_true] at hb
  exact hb.2

theorem all_lower_ne {d : Char} (hd : d.isLower = false) {l : List Char}
    (h : l.all Char.isLower = true) : l.all (fun c => !(c == d)) = true := by
  rw [List.all_eq_true] at *
  intro c hc
  simp [lower_beq_false (h c hc) hd]

theorem takeWhile_append_all {p : Char → Bool} (u v : List Char) (h : u.all p = true) :
    (u ++ v).takeWhile p = u ++ v.takeWhile p := by
  induction u with
  | nil => simp
  | cons c u ih =>
      simp only [List.all_cons, Bool.and_eq_true] at h
      simp [List.takeWhile_cons, h.1, ih h.2]

theorem dropWhile_append_all {p : Char → Bool} (u v : List Char) (h : u.all p = true) :
    (u ++ v).dropWhile p = v.dropWhile p := by
  induction u with
  | nil => simp
  | cons c u ih =>
      simp only [List.all_cons, Bool.and_eq_true] at h
      simp [List.dropWhile_cons, h.1, ih h.2]

theorem prefixB_self_append (u v : List Char) : prefixB u (u ++ v) = true := by
  induction u with
  | nil => rfl
  | cons c u ih => simp [prefixB, ih]

/-! ### The stripping pass on well-formed fragments -/

theorem stripGo_copy (u r : List Char) (h : u.all (fun c => !(c == '<')) = true) :
    stripGo false (u ++ r) = u ++ stripGo false r := by
  induction u with
  | nil => rfl
  | cons c u ih =>
      simp only [List.all_cons, Bool.and_eq_true, Bool.not_eq_true'] at h
      have hr := ih (by simpa using h.2)
      simp [stripGo, h.1, hr]

theorem stripGo_skip (u r : List Char) (h : u.all (fun c => !(c == '>')) = true) :
    stripGo true (u ++ '>' :: r) = stripGo false r := by
  induction u with
  | nil => simp [stripGo]
  | cons c u ih =>
      simp only [List.all_cons, Bool.and_eq_true, Bool.not_eq_true'] at h
      have hr := ih (by simpa using h.2)
      simp [stripGo, h.1, hr]

theorem mem_stripGo : ∀ (s : List Char) (m : Bool) (c : Char), c ∈ stripGo m s → c ∈ s := by
  intro s
  induction s with
  | nil =>
      intro m c h
      rw [show stripGo m [] = [] from by cases m <;> rfl] at h
      exact absurd h (List.not_mem_nil c)
  | cons d rest ih =>
      intro m c h
      cases m
      · by_cases hd : (d == '<' && stripMatchB rest) = true
        · rw [show stripGo false (d :: rest) = stripGo true rest from by simp [stripGo, hd]] at h
          exact List.mem_cons_of_mem _ (ih true c h)
        · rw [show stripGo false (d :: rest) = d :: stripGo false rest from by
            simp only [stripGo]; rw [if_neg hd]] at h
          rcases List.mem_cons.mp h with h | h
          · rw [h]; exact List.mem_cons_self _ _
          · exact List.mem_cons_of_mem _ (ih false c h)
      · by_cases hd : (d == '>') = true
        · rw [show stripGo true (d :: rest) = stripGo false rest from by simp [stripGo, hd]] at h
          exact List.mem_cons_of_mem _ (ih false c h)
        · rw [show stripGo true (d :: rest) = stripGo true rest from by
            simp only [stripGo]; rw [if_neg hd]] at h
          exact List.mem_cons_of_mem _ (ih true c h)

theorem prefixB_bdry_unique : ∀ (t n s : List Char),
    t.all Char.isLower = true → n.all Char.isLower = true → bdryB s = true →
    prefixB t (n ++ s) = true → bdryB ((n ++ s).drop t.length) = true → t = n := by
  intro t
  induction t with
  | nil =>
      intro n s _ hn hs _ hb
      cases n with
      | nil => rfl
      | cons d n' =>
          simp only [List.all_cons, Bool.and_eq_true] at hn
          simp only [List.length_nil, List.drop_zero, List.cons_append, bdryB] at hb
          rw [word_of_lower hn.1] at hb
          exact absurd hb (by decide)
  | cons c t' ih =>
      intro n s ht hn hs hp hb
      simp only [List.all_cons, Bool.and_eq_true] at ht
      cases n with
      | nil =>
          simp only [List.nil_append] at hp hb
          cases s with
          | nil => exact absurd hp (by simp [prefixB])
          | cons d s' =>
              simp only [prefixB, Bool.and_eq_true] at hp
              have hcd : c = d := beq_iff_eq.mp hp.1
              simp only [bdryB] at hs
              rw [← hcd, word_of_lower ht.1] at hs
              exact absurd hs (by decide)
      | cons d n' =>
          simp only [List.cons_append, prefixB, Bool.and_eq_true] at hp
          simp only [List.cons_append] at hb
          have hcd : c = d := beq_iff_eq.mp hp.1
          simp only [List.all_cons, Bool.and_eq_true] at hn
          rw [show ((d :: (n' ++ s)).drop (c :: t').length) = (n' ++ s).drop t'.length from by
            simp [List.length_cons]] at hb
          rw [hcd, ih n' s ht.2 hn.2 hs hp.2 hb]

theorem bdry_attrs {a : List Char} (r : List Char)
    (ha : (match a with | [] => true | c :: _ => !(isWordCharB c)) = true) :
    bdryB (a ++ '>' :: r) = true := by
  cases a with
  | nil => rfl
  | cons c a' => simpa [bdryB] using ha

theorem startsAllowedB_true {n : List Char} (a r : List Char) (hn : n ∈ ALLOWED)
    (ha : (match a with | [] => true | c :: _ => !(isWordCharB c)) = true) :
    startsAllowedB (n ++ (a ++ '>' :: r)) = true := by
  rw [startsAllowedB, List.any_eq_true]
  exact ⟨n, hn, by simp [prefixB_self_append, List.drop_left, bdry_attrs r ha]⟩

theorem startsAllowedB_false {n : List Char} (a r : List Char)
    (hl : n.all Char.isLower = true)
    (ha : (match a with | [] => true | c :: _ => !(isWordCharB c)) = true)
    (hn : allowedB n = false) :
    startsAllowedB (n ++ (a ++ '>' :: r)) = false := by
  cases hsa : startsAllowedB (n ++ (a ++ '>' :: r))
  · rfl
  · exfalso
    rw [startsAllowedB, List.any_eq_true] at hsa
    obtain ⟨t, htmem, hts⟩ := hsa
    simp only [Bool.and_eq_true] at hts
    have htl := (allowed_ne_nil_all_lower t htmem).2
    have hteq : t = n :=
      prefixB_bdry_unique t n (a ++ '>' :: r) htl hl (bdry_attrs r ha) hts.1 hts.2
    rw [allowedB, decide_eq_false_iff_not] at hn
    exact hn (hteq ▸ htmem)

theorem stripGo_false_cons (c : Char) (rest : List Char) :
    stripGo false (c :: rest) =
      if c == '<' && stripMatchB rest then stripGo true rest else c :: stripGo false rest := rfl

theorem stripGo_true_cons (c : Char) (rest : List Char) :
    stripGo true (c :: rest) =
      if c == '>' then stripGo false rest else stripGo true rest := rfl

theorem stripGo_item (it : Item) (r : List Char) (hwf : itemWFB it = true) :
    stripGo false (renderItem it ++ r) =
      (if keepB it then renderItem it else []) ++ stripGo false r := by
  cases it with
  | txt s =>
      simp only [itemWFB] at hwf
      simp only [renderItem, keepB, if_true]
      exact stripGo_copy s r (all_and_left hwf)
  | openT n a =>
      simp only [itemWFB, Bool.and_eq_true] at hwf
      obtain ⟨⟨⟨hne, hnl⟩, hab⟩, hbd⟩ := hwf
      cases n with
      | nil => exact absurd hne (by decide)
      | cons c n' =>
          have hc : c.isLower = true := by
            simp only [List.all_cons, Bool.and_eq_true] at hnl
            exact hnl.1
          have hre : renderItem (Item.openT (c :: n') a) ++ r =
              '<' :: ((c :: n') ++ (a ++ '>' :: r)) := by
            simp [renderItem, List.append_assoc]
          have hslash : ¬ (((c :: n') ++ (a ++ '>' :: r)).head? = some '/') := by
            simp only [List.cons_append, List.head?_cons, Option.some.injEq]
            intro h
            rw [h] at hc
            exact absurd hc (by decide)
          have hgt : ('>' ∈ (c :: n') ++ (a ++ '>' :: r)) := by simp [List.mem_append]
          have hacopy : (a.all fun x => !(x == '<')) = true := all_and_left hab
          have hagt : (a.all fun x => !(x == '>')) = true := all_and_right hab
          cases hall : allowedB (c :: n') with
          | true =>
              have hmem : (c :: n') ∈ ALLOWED := by
                have hall2 := hall
                rw [allowedB] at hall2
                exact of_decide_eq_true hall2
              have hsm : stripMatchB ((c :: n') ++ (a ++ '>' :: r)) = false := by
                rw [stripMatchB, if_neg hslash, startsAllowedB_true a r hmem hbd]
                simp
              rw [hre]
              have h1 : stripGo false ('<' :: ((c :: n') ++ (a ++ '>' :: r))) =
                  '<' :: stripGo false ((c :: n') ++ (a ++ '>' :: r)) := by
                rw [stripGo_false_cons, hsm]
                simp
              rw [h1]
              have h2 : stripGo false (((c :: n') ++ a ++ ['>']) ++ r) =
                  ((c :: n') ++ a ++ ['>']) ++ stripGo false r := by
                apply stripGo_copy
                simp only [List.all_append, Bool.and_eq_true]
                exact ⟨⟨all_lower_ne (by decide) hnl, hacopy⟩, by decide⟩
              rw [show ((c :: n') ++ (a ++ '>' :: r)) = ((c :: n') ++ a ++ ['>']) ++ r from by
                simp [List.append_assoc]]
              rw [h2]
              simp [keepB, hall, renderItem, List.append_assoc]
          | false =>
              have hsa := startsAllowedB_false a r hnl hbd hall
              have hsm : stripMatchB ((c :: n') ++ (a ++ '>' :: r)) = true := by
                rw [stripMatchB, if_neg hslash, hsa]
                simp [hgt]
              rw [hre]
              have h1 : stripGo false ('<' :: ((c :: n') ++ (a ++ '>' :: r))) =
                  stripGo true ((c :: n') ++ (a ++ '>' :: r)) := by
                rw [stripGo_false_cons, hsm]
                simp
              rw [h1]
              rw [show ((c :: n') ++ (a ++ '>' :: r)) = (((c :: n') ++ a) ++ '>' :: r) from by
                simp [List.append_assoc]]
              rw [stripGo_skip]
              · simp [keepB, hall]
              · simp only [List.all_append, Bool.and_eq_true]
                exact ⟨all_lower_ne (by decide) hnl, hagt⟩
  | closeT n =>
      simp only [itemWFB, Bool.and_eq_true] at hwf
      obtain ⟨hne, hnl⟩ := hwf
      have hre : renderItem (Item.closeT n) ++ r = '<' :: '/' :: (n ++ '>' :: r) := by
        simp [renderItem, List.append_assoc]
      have hsm : stripMatchB ('/' :: (n ++ '>' :: r)) = true := by
        rw [stripMatchB]
        simp [List.mem_append]
      rw [hre]
      have h1 : stripGo false ('<' :: '/' :: (n ++ '>' :: r)) =
          stripGo true ('/' :: (n ++ '>' :: r)) := by
        rw [stripGo_false_cons, hsm]
        simp
      rw [h1]
      rw [show ('/' :: (n ++ '>' :: r)) = (('/' :: n) ++ '>' :: r) from by simp]
      rw [stripGo_skip]
      · simp [keepB]
      · simp only [List.all_cons, Bool.and_eq_true]
        exact ⟨by decide, all_lower_ne (by decide) hnl⟩

theorem render_append (l1 l2 : List Item) : render (l1 ++ l2) = render l1 ++ render l2 := by
  induction l1 with
  | nil => rfl
  | cons it l1 ih => simp [render, ih, List.append_assoc]

theorem stripGo_render (items : List Item) :
    ∀ (r : List Char), wfItemsB items = true →
    stripGo false (render items ++ r) = render (keep items) ++ stripGo false r := by
  induction items with
  | nil => intro r _; rfl
  | cons it items ih =>
      intro r hwf
      simp only [wfItemsB, List.all_cons, Bool.and_eq_true] at hwf
      rw [render, List.append_assoc, stripGo_item it _ hwf.1, ih _ hwf.2]
      cases hk : keepB it <;>
        simp [keep, List.filter_cons, hk, render, List.append_assoc]

theorem stripTags_render (items : List Item) (h : wfItemsB items = true) :
    stripTags (render items) = render (keep items) := by
  have hx := stripGo_render items [] h
  rw [List.append_nil] at hx
  rw [stripTags, hx]
  simp [stripGo]

theorem noClose_cons {c : Char} {l : List Char} (h : NoCloseP (c :: l)) : NoCloseP l := by
  intro x y hxy
  exact h (c :: x) y (by rw [hxy, List.cons_append])

theorem noCloseP_stripGo : ∀ (s : List Char) (m : Bool), NoCloseP (stripGo m s) := by
  intro s
  induction s with
  | nil =>
      intro m x y hxy
      rw [show stripGo m [] = [] from by cases m <;> rfl] at hxy
      simp at hxy
  | cons d rest ih =>
      intro m
      cases m
      · by_cases hd : (d == '<' && stripMatchB rest) = true
        · rw [show stripGo false (d :: rest) = stripGo true rest from by
            rw [stripGo_false_cons, if_pos hd]]
          exact ih true
        · rw [show stripGo false (d :: rest) = d :: stripGo false rest from by
            rw [stripGo_false_cons, if_neg hd]]
          intro x y hxy
          cases x with
          | nil =>
              simp only [List.nil_append] at hxy
              obtain ⟨hd2, hT⟩ := List.cons.inj hxy
              subst hd2
              have hsm : stripMatchB rest = false := by
                cases hs : stripMatchB rest
                · rfl
                · exact absurd (by simp [hs]) hd
              rw [stripMatchB] at hsm
              cases hmem : decide ('>' ∈ rest) with
              | false =>
                  intro hy
                  have h1 : '>' ∈ stripGo false rest := by
                    rw [hT]
                    exact List.mem_cons_of_mem _ hy
                  exact absurd (decide_eq_true (mem_stripGo rest false '>' h1)) (by simp [hmem])
              | true =>
                  rw [hmem] at hsm
                  simp only [Bool.true_and] at hsm
                  by_cases hh : rest.head? = some '/'
                  · rw [if_pos hh] at hsm
                    exact absurd hsm (by decide)
                  · rw [if_neg hh] at hsm
                    have hsa : startsAllowedB rest = true := by
                      cases hs : startsAllowedB rest
                      · rw [hs] at hsm
                        exact absurd hsm (by decide)
                      · rfl
                    rw [startsAllowedB, List.any_eq_true] at hsa
                    obtain ⟨t, htm, htp⟩ := hsa
                    simp only [Bool.and_eq_true] at htp
                    obtain ⟨hne, hlow⟩ := allowed_ne_nil_all_lower t htm
                    cases t with
                    | nil => exact absurd rfl hne
                    | cons e t' =>
                        cases rest with
                        | nil => exact absurd htp.1 (by simp [prefixB])
                        | cons f rest' =>
                            simp only [prefixB, Bool.and_eq_true] at htp
                            have hef : e = f := beq_iff_eq.mp htp.1.1
                            simp only [List.all_cons, Bool.and_eq_true] at hlow
                            have hfl : f.isLower = true := hef ▸ hlow.1
                            have hfne : (f == '<') = false := lower_beq_false hfl (by decide)
                            have hfo : stripGo false (f :: rest') = f :: stripGo false rest' := by
                              rw [stripGo_false_cons]
                              rw [show ((f == '<') && stripMatchB rest') = false from by
                                rw [hfne]; simp]
                              simp
                            rw [hfo] at hT
                            obtain ⟨hfsl, _⟩ := List.cons.inj hT
                            rw [hfsl] at hfl
                            exact absurd hfl (by decide)
          | cons c2 x' =>
              obtain ⟨_, hT⟩ := List.cons.inj hxy
              exact (ih false) x' y hT
      · by_cases hd : (d == '>') = true
        · rw [show stripGo true (d :: rest) = stripGo false rest from by
            rw [stripGo_true_cons, if_pos hd]]
          exact ih false
        · rw [show stripGo true (d :: rest) = stripGo true rest from by
            rw [stripGo_true_cons, if_neg hd]]
          exact ih true

theorem closesGo_eq_nil : ∀ (t : List Char), NoCloseP t → closesGo t = [] := by
  intro t
  induction t with
  | nil => intro _; rfl
  | cons c rest ih =>
      intro h
      have hrest := noClose_cons h
      have hct : (if c == '<' then (closeTokOf rest).toList else []) = [] := by
        cases hc : c == '<' with
        | false => rfl
        | true =>
            have hcc : c = '<' := beq_iff_eq.mp hc
            subst hcc
            cases hcto : closeTokOf rest with
            | none => simp [hcto]
            | some nm =>
                exfalso
                rw [closeTokOf] at hcto
                by_cases hh : rest.head? = some '/'
                · rw [if_pos hh] at hcto
                  cases rest with
                  | nil => simp at hh
                  | cons f r2 =>
                      have hf : f = '/' := by simpa using hh
                      subst hf
                      simp only [List.tail_cons] at hcto
                      by_cases hg : (!(r2.takeWhile Char.isLower == []) &&
                          ((r2.drop (r2.takeWhile Char.isLower).length).head? == some '>')) = true
                      · simp only [Bool.and_eq_true] at hg
                        have hh2 : (r2.drop (r2.takeWhile Char.isLower).length).head? = some '>' :=
                          beq_iff_eq.mp hg.2
                        have hmem : '>' ∈ r2 := by
                          have h1 : '>' ∈ r2.drop (r2.takeWhile Char.isLower).length := by
                            cases hdrop : r2.drop (r2.takeWhile Char.isLower).length with
                            | nil => rw [hdrop] at hh2; simp at hh2
                            | cons z zs =>
                                rw [hdrop] at hh2
                                simp only [List.head?_cons, Option.some.injEq] at hh2
                                rw [hh2]
                                exact List.mem_cons_self _ _
                          exact List.drop_subset _ _ h1
                        exact (h [] r2 rfl) hmem
                      · rw [if_neg hg] at hcto
                        exact Option.noConfusion hcto
                · rw [if_neg hh] at hcto
                  exact Option.noConfusion hcto
      rw [show closesGo (c :: rest) =
        (if c == '<' then (closeTokOf rest).toList else []) ++ closesGo rest from rfl]
      rw [hct, List.nil_append]
      exact ih hrest

theorem collectCloses_stripTags_nil (s : List Char) : collectCloses (stripTags s) = [] :=
  closesGo_eq_nil _ (noCloseP_stripGo s false)

/-- C1 (counterexample): the spec's single-scan sanitizer leaves a mismatched
closing tag in the text (`sanitize "</b>" = "</b>"`), while the code's
stripping regex removes every closing tag — allow-listed or not — so
`HTMLCleaner.clean "</b>" = ""`.  The two disagree at this input, refuting
the claimed single-scan characterisation. -/
theorem claim1_counterexample :
    clean (String.toList "</b>") ≠ cleanSpecScan (String.toList "</b>") := by decide

/-- C1 (amended): `HTMLCleaner.clean` is not the spec's single scan.  Its
stripping regex removes every closing tag (the optional slash backtracks past
the allow-list lookahead), so the surviving text contains no closing tag at
all, the closing-tag matching pass never pops, and the result is exactly the
stripped text followed by one closing tag for every surviving allow-listed
opening tag, in reverse order of opening. -/
theorem claim1_amended : ∀ s : List Char,
    collectCloses (stripTags s) = [] ∧
    clean s = stripTags s ++ closersFor (collectOpens (stripTags s)) := by
  intro s
  refine ⟨collectCloses_stripTags_nil s, ?_⟩
  rw [clean, collectCloses_stripTags_nil s]
  rfl

/-! ### The opening-tag collection pass on well-formed fragments -/

theorem opensGo_false_cons (c : Char) (rest : List Char) :
    opensGo false (c :: rest) =
      if c == '<' && openMatchB rest then
        (if allowedB (rest.takeWhile Char.isLower) then [rest.takeWhile Char.isLower] else [])
          ++ opensGo true rest
      else opensGo false rest := rfl

theorem opensGo_true_cons (c : Char) (rest : List Char) :
    opensGo true (c :: rest) =
      if c == '>' then opensGo false rest else opensGo true rest := rfl

theorem opensGo_copy (u r : List Char) (h : u.all (fun c => !(c == '<')) = true) :
    opensGo false (u ++ r) = opensGo false r := by
  induction u with
  | nil => rfl
  | cons c u ih =>
      simp only [List.all_cons, Bool.and_eq_true, Bool.not_eq_true'] at h
      have hr := ih (by simpa using h.2)
      rw [List.cons_append, opensGo_false_cons]
      rw [show ((c == '<') && openMatchB (u ++ r)) = false from by rw [h.1]; simp]
      simpa using hr

theorem opensGo_skip (u r : List Char) (h : u.all (fun c => !(c == '>')) = true) :
    opensGo true (u ++ '>' :: r) = opensGo false r := by
  induction u with
  | nil => simp [opensGo_true_cons]
  | cons c u ih =>
      simp only [List.all_cons, Bool.and_eq_true, Bool.not_eq_true'] at h
      have hr := ih (by simpa using h.2)
      rw [List.cons_append, opensGo_true_cons, if_neg (by simp [h.1])]
      exact hr

theorem takeWhile_lower_attrs {a : List Char} (r : List Char)
    (hbd : (match a with | [] => true | c :: _ => !(isWordCharB c)) = true) :
    (a ++ '>' :: r).takeWhile Char.isLower = [] := by
  cases a with
  | nil => simp [List.takeWhile_cons]
  | cons d a' =>
      simp only [Bool.not_eq_true'] at hbd
      simp [List.takeWhile_cons, not_lower_of_not_word hbd]

theorem dropWhile_lower_attrs {a : List Char} (r : List Char)
    (hbd : (match a with | [] => true | c :: _ => !(isWordCharB c)) = true) :
    (a ++ '>' :: r).dropWhile Char.isLower = a ++ '>' :: r := by
  cases a with
  | nil => simp [List.dropWhile_cons]
  | cons d a' =>
      simp only [Bool.not_eq_true'] at hbd
      simp [List.dropWhile_cons, not_lower_of_not_word hbd]

theorem opensGo_item (it : Item) (r : List Char) (hwf : itemWFB it = true)
    (hnc : notCloseB it = true) :
    opensGo false (renderItem it ++ r) = openNamesOf [it] ++ opensGo false r := by
  cases it with
  | txt s =>
      simp only [renderItem, openNamesOf, List.nil_append]
      simp only [itemWFB] at hwf
      exact opensGo_copy s r (all_and_left hwf)
  | openT n a =>
      simp only [itemWFB, Bool.and_eq_true] at hwf
      obtain ⟨⟨⟨hne, hnl⟩, hab⟩, hbd⟩ := hwf
      cases n with
      | nil => exact absurd hne (by decide)
      | cons c n' =>
          have hc : c.isLower = true := by
            simp only [List.all_cons, Bool.and_eq_true] at hnl
            exact hnl.1
          have hre : renderItem (Item.openT (c :: n') a) ++ r =
              '<' :: ((c :: n') ++ (a ++ '>' :: r)) := by
            simp [renderItem, List.append_assoc]
          have hom : openMatchB ((c :: n') ++ (a ++ '>' :: r)) = true := by
            rw [show openMatchB ((c :: n') ++ (a ++ '>' :: r)) =
              (c.isLower && decide ('>' ∈ (c :: n') ++ (a ++ '>' :: r))) from rfl]
            simp [hc, List.mem_append]
          have htw : ((c :: n') ++ (a ++ '>' :: r)).takeWhile Char.isLower = c :: n' := by
            rw [takeWhile_append_all _ _ hnl, takeWhile_lower_attrs r hbd, List.append_nil]
          have hsk : opensGo true ((c :: n') ++ (a ++ '>' :: r)) = opensGo false r := by
            rw [show ((c :: n') ++ (a ++ '>' :: r)) = (((c :: n') ++ a) ++ '>' :: r) from by
              simp [List.append_assoc]]
            apply opensGo_skip
            simp only [List.all_append, Bool.and_eq_true]
            exact ⟨all_lower_ne (by decide) hnl, all_and_right hab⟩
          rw [hre, opensGo_false_cons]
          rw [if_pos (show ('<' == '<' && openMatchB ((c :: n') ++ (a ++ '>' :: r))) = true from by
            rw [hom]; simp)]
          rw [htw, hsk]
          cases hall : allowedB (c :: n') <;> simp [openNamesOf, hall]
  | closeT n => exact absurd hnc (by simp [notCloseB])

theorem opensGo_render (items : List Item) :
    ∀ (r : List Char), wfItemsB items = true →
    items.all notCloseB = true →
    opensGo false (render items ++ r) = openNamesOf items ++ opensGo false r := by
  induction items with
  | nil => intro r _ _; rfl
  | cons it items ih =>
      intro r hwf hnc
      simp only [wfItemsB, List.all_cons, Bool.and_eq_true] at hwf hnc
      rw [render, List.append_assoc, opensGo_item it _ hwf.1 hnc.1, ih _ hwf.2 (by
        simpa [wfItemsB] using hnc.2)]
      rw [show openNamesOf (it :: items) = openNamesOf [it] ++ openNamesOf items from by
        cases it <;> simp [openNamesOf] <;> split <;> simp]
      rw [List.append_assoc]

theorem wf_keep {items : List Item} (h : wfItemsB items = true) :
    wfItemsB (keep items) = true := by
  rw [wfItemsB, List.all_eq_true] at *
  intro it hit
  exact h it (List.mem_of_mem_filter hit)

theorem keep_no_close (items : List Item) :
    (keep items).all notCloseB = true := by
  rw [List.all_eq_true]
  intro it hit
  have hk := List.of_mem_filter hit
  cases it with
  | txt s => rfl
  | openT n a => rfl
  | closeT n => exact absurd hk (by simp [keepB])

theorem openNamesOf_keep (items : List Item) : openNamesOf (keep items) = openNamesOf items := by
  induction items with
  | nil => rfl
  | cons it items ih =>
      cases it with
      | txt s => simpa [keep, List.filter_cons, keepB, openNamesOf] using ih
      | openT n a =>
          cases hall : allowedB n <;>
            simp [keep, List.filter_cons, keepB, hall, openNamesOf] <;>
              [exact ih; skip] <;> exact ih
      | closeT n => simpa [keep, List.filter_cons, keepB, openNamesOf] using ih

theorem collectOpens_render_keep (items : List Item) (h : wfItemsB items = true) :
    collectOpens (render (keep items)) = openNamesOf items := by
  have hx := opensGo_render (keep items) [] (wf_keep h) (keep_no_close items)
  rw [List.append_nil] at hx
  rw [collectOpens, hx, openNamesOf_keep]
  simp [opensGo]

theorem clean_eq (s : List Char) :
    clean s = stripTags s ++ closersFor (collectOpens (stripTags s)) := by
  rw [clean, collectCloses_stripTags_nil s]
  rfl

theorem clean_render (items : List Item) (h : wfItemsB items = true) :
    clean (render items) = render (keep items) ++ closersFor (openNamesOf items) := by
  rw [clean_eq, stripTags_render items h, collectOpens_render_keep items h]

/-! ### The tokenizer on well-formed fragments -/

theorem tokGo_false_cons (c : Char) (rest : List Char) :
    tokGo false (c :: rest) =
      if c == '<' then
        match closeTokOf rest with
        | some n => Tok.closeTok n :: tokGo false rest
        | none =>
            if openMatchB rest then
              Tok.openTok (rest.takeWhile Char.isLower)
                  ((rest.dropWhile Char.isLower).takeWhile (fun d => !(d == '>')))
                :: tokGo true rest
            else tokGo false rest
      else tokGo false rest := rfl

theorem tokGo_true_cons (c : Char) (rest : List Char) :
    tokGo true (c :: rest) =
      if c == '>' then tokGo false rest else tokGo true rest := rfl

theorem tokGo_copy (u r : List Char) (h : u.all (fun c => !(c == '<')) = true) :
    tokGo false (u ++ r) = tokGo false r := by
  induction u with
  | nil => rfl
  | cons c u ih =>
      simp only [List.all_cons, Bool.and_eq_true, Bool.not_eq_true'] at h
      have hr := ih (by simpa using h.2)
      rw [List.cons_append, tokGo_false_cons, if_neg (by simp [h.1])]
      exact hr

theorem tokGo_skip (u r : List Char) (h : u.all (fun c => !(c == '>')) = true) :
    tokGo true (u ++ '>' :: r) = tokGo false r := by
  induction u with
  | nil => simp [tokGo_true_cons]
  | cons c u ih =>
      simp only [List.all_cons, Bool.and_eq_true, Bool.not_eq_true'] at h
      have hr := ih (by simpa using h.2)
      rw [List.cons_append, tokGo_true_cons, if_neg (by simp [h.1])]
      exact hr

theorem tokGo_item (it : Item) (r : List Char) (hwf : itemWFB it = true) :
    tokGo false (renderItem it ++ r) = (itemTok it).toList ++ tokGo false r := by
  cases it with
  | txt s =>
      simp only [renderItem, itemTok, Option.toList, List.nil_append]
      simp only [itemWFB] at hwf
      exact tokGo_copy s r (all_and_left hwf)
  | openT n a =>
      simp only [itemWFB, Bool.and_eq_true] at hwf
      obtain ⟨⟨⟨hne, hnl⟩, hab⟩, hbd⟩ := hwf
      cases n with
      | nil => exact absurd hne (by decide)
      | cons c n' =>
          have hc : c.isLower = true := by
            simp only [List.all_cons, Bool.and_eq_true] at hnl
            exact hnl.1
          have hre : renderItem (Item.openT (c :: n') a) ++ r =
              '<' :: ((c :: n') ++ (a ++ '>' :: r)) := by
            simp [renderItem, List.append_assoc]
          have hcto : closeTokOf ((c :: n') ++ (a ++ '>' :: r)) = none := by
            rw [closeTokOf, if_neg]
            simp only [List.cons_append, List.head?_cons, Option.some.injEq]
            intro h
            rw [h] at hc
            exact absurd hc (by decide)
          have hom : openMatchB ((c :: n') ++ (a ++ '>' :: r)) = true := by
            rw [show openMatchB ((c :: n') ++ (a ++ '>' :: r)) =
              (c.isLower && decide ('>' ∈ (c :: n') ++ (a ++ '>' :: r))) from rfl]
            simp [hc, List.mem_append]
          have htw : ((c :: n') ++ (a ++ '>' :: r)).takeWhile Char.isLower = c :: n' := by
            rw [takeWhile_append_all _ _ hnl, takeWhile_lower_attrs r hbd, List.append_nil]
          have hdw : ((c :: n') ++ (a ++ '>' :: r)).dropWhile Char.isLower = a ++ '>' :: r := by
            rw [dropWhile_append_all _ _ hnl, dropWhile_lower_attrs r hbd]
          have hat : (a ++ '>' :: r).takeWhile (fun d => !(d == '>')) = a := by
            rw [takeWhile_append_all _ _ (all_and_right hab)]
            simp [List.takeWhile_cons]
          have hsk : tokGo true ((c :: n') ++ (a ++ '>' :: r)) = tokGo false r := by
            rw [show ((c :: n') ++ (a ++ '>' :: r)) = (((c :: n') ++ a) ++ '>' :: r) from by
              simp [List.append_assoc]]
            apply tokGo_skip
            simp only [List.all_append, Bool.and_eq_true]
            exact ⟨all_lower_ne (by decide) hnl, all_and_right hab⟩
          rw [hre, tokGo_false_cons, if_pos (show ('<' == '<') = true from rfl), hcto]
          simp only [hom, if_pos]
          rw [htw, hdw, hat, hsk]
          simp [itemTok]
  | closeT n =>
      simp only [itemWFB, Bool.and_eq_true] at hwf
      obtain ⟨hne, hnl⟩ := hwf
      have hnne : n ≠ [] := by
        intro h
        rw [h] at hne
        exact absurd hne (by decide)
      have hre : renderItem (Item.closeT n) ++ r = '<' :: '/' :: (n ++ '>' :: r) := by
        simp [renderItem, List.append_assoc]
      have htw : (n ++ '>' :: r).takeWhile Char.isLower = n := by
        rw [takeWhile_append_all _ _ hnl]
        simp [List.takeWhile_cons]
      have hcto : closeTokOf ('/' :: (n ++ '>' :: r)) = some n := by
        rw [closeTokOf, if_pos (by simp)]
        simp only [List.tail_cons]
        rw [htw]
        rw [if_pos]
        · simp only [Bool.and_eq_true]
          constructor
          · simp [beq_eq_false_iff_ne, hnne]
          · rw [List.drop_left]
            simp
      have hwalk : tokGo false ('/' :: (n ++ '>' :: r)) = tokGo false r := by
        rw [tokGo_false_cons, if_neg (by decide)]
        rw [show (n ++ '>' :: r) = (n ++ ['>']) ++ r from by simp [List.append_assoc]]
        apply tokGo_copy
        simp only [List.all_append, Bool.and_eq_true]
        exact ⟨all_lower_ne (by decide) hnl, by decide⟩
      rw [hre, tokGo_false_cons, if_pos (show ('<' == '<') = true from rfl), hcto, hwalk]
      simp [itemTok]

theorem tokGo_render (items : List Item) :
    ∀ (r : List Char), wfItemsB items = true →
    tokGo false (render items ++ r) = items.filterMap itemTok ++ tokGo false r := by
  induction items with
  | nil => intro r _; rfl
  | cons it items ih =>
      intro r hwf
      simp only [wfItemsB, List.all_cons, Bool.and_eq_true] at hwf
      rw [render, List.append_assoc, tokGo_item it _ hwf.1, ih _ hwf.2]
      cases it <;> simp [itemTok, List.filterMap_cons]

theorem tagTokens_render (items : List Item) (h : wfItemsB items = true) :
    tagTokens (render items) = items.filterMap itemTok := by
  have hx := tokGo_render items [] h
  rw [List.append_nil] at hx
  rw [tagTokens, hx]
  simp [tokGo]

/-! ### Balance and counting of the produced token sequences -/

theorem foldl_balStep_opens_closes (L : List (List Char × List Char)) :
    ∀ st, List.foldl balStep (some st)
      ((L.map fun p => Tok.openTok p.1 p.2) ++ ((L.map Prod.fst).reverse.map Tok.closeTok)) =
      some st := by
  induction L with
  | nil => intro st; rfl
  | cons p L ih =>
      intro st
      simp only [List.map_cons, List.reverse_cons, List.map_append, List.cons_append,
        List.foldl_cons]
      rw [show balStep (some st) (Tok.openTok p.1 p.2) = some (p.1 :: st) from rfl]
      rw [← List.append_assoc, List.foldl_append, ih (p.1 :: st)]
      simp [balStep]

theorem countOpen_opensMap (t : List Char) (L : List (List Char × List Char)) :
    countOpen t (L.map fun p => Tok.openTok p.1 p.2) =
      (L.map Prod.fst).countP (fun n => n == t) := by
  induction L with
  | nil => rfl
  | cons p L ih =>
      simp only [List.map_cons, countOpen, List.countP_cons] at *
      rw [ih]

theorem countOpen_closesMap (t : List Char) (M : List (List Char)) :
    countOpen t (M.map Tok.closeTok) = 0 := by
  induction M with
  | nil => rfl
  | cons n M ih =>
      simp only [List.map_cons, countOpen, List.countP_cons] at *
      rw [ih]
      simp

theorem countClose_opensMap (t : List Char) (L : List (List Char × List Char)) :
    countClose t (L.map fun p => Tok.openTok p.1 p.2) = 0 := by
  induction L with
  | nil => rfl
  | cons p L ih =>
      simp only [List.map_cons, countClose, List.countP_cons] at *
      rw [ih]
      simp

theorem countClose_closesMap (t : List Char) (M : List (List Char)) :
    countClose t (M.map Tok.closeTok) = M.countP (fun n => n == t) := by
  induction M with
  | nil => rfl
  | cons n M ih =>
      simp only [List.map_cons, countClose, List.countP_cons] at *
      rw [ih]

theorem countP_reverse_names (p : List Char → Bool) (l : List (List Char)) :
    l.reverse.countP p = l.countP p := by
  induction l with
  | nil => rfl
  | cons n l ih =>
      rw [List.reverse_cons, List.countP_append, ih, List.countP_cons, List.countP_cons,
        List.countP_nil]
      omega

theorem counts_opens_closes (t : List Char) (L : List (List Char × List Char)) :
    countOpen t ((L.map fun p => Tok.openTok p.1 p.2) ++
        ((L.map Prod.fst).reverse.map Tok.closeTok)) =
      countClose t ((L.map fun p => Tok.openTok p.1 p.2) ++
        ((L.map Prod.fst).reverse.map Tok.closeTok)) := by
  rw [countOpen, countClose, List.countP_append, List.countP_append]
  rw [← countOpen, ← countOpen, ← countClose, ← countClose]
  rw [countOpen_opensMap, countOpen_closesMap, countClose_opensMap, countClose_closesMap]
  rw [countP_reverse_names]
  omega

/-! ### Item bookkeeping -/

theorem closersOf_render (l : List (List Char)) : closersOf l = render (l.map Item.closeT) := by
  induction l with
  | nil => rfl
  | cons n l ih => simp [closersOf, render, renderItem, ih, List.append_assoc]

theorem wfItemsB_append (l1 l2 : List Item) :
    wfItemsB (l1 ++ l2) = (wfItemsB l1 && wfItemsB l2) := List.all_append

theorem keep_append (l1 l2 : List Item) : keep (l1 ++ l2) = keep l1 ++ keep l2 :=
  List.filter_append l1 l2

theorem keep_keep (l : List Item) : keep (keep l) = keep l := by
  induction l with
  | nil => rfl
  | cons it l ih =>
      cases hk : keepB it
      · have h1 : keep (it :: l) = keep l := by simp [keep, List.filter_cons, hk]
        rw [h1, ih]
      · have h1 : keep (it :: l) = it :: keep l := by simp [keep, List.filter_cons, hk]
        have h2 : keep (it :: keep l) = it :: keep (keep l) := by
          simp [keep, List.filter_cons, hk]
        rw [h1, h2, ih]

theorem keep_closers (M : List (List Char)) : keep (M.map Item.closeT) = [] := by
  induction M with
  | nil => rfl
  | cons n M ih =>
      have h1 : keep (Item.closeT n :: M.map Item.closeT) = keep (M.map Item.closeT) := by
        simp [keep, List.filter_cons, keepB]
      rw [List.map_cons, h1, ih]

theorem openNamesOf_append (l1 l2 : List Item) :
    openNamesOf (l1 ++ l2) = openNamesOf l1 ++ openNamesOf l2 := by
  induction l1 with
  | nil => rfl
  | cons it l1 ih =>
      cases it with
      | txt s => simpa [openNamesOf] using ih
      | openT n a => cases hall : allowedB n <;> simp [openNamesOf, hall] <;> exact ih
      | closeT n => simpa [openNamesOf] using ih

theorem openNamesOf_closers (M : List (List Char)) : openNamesOf (M.map Item.closeT) = [] := by
  induction M with
  | nil => rfl
  | cons n M ih => simpa [openNamesOf] using ih

theorem names_allowed (items : List Item) : ∀ n ∈ openNamesOf items, allowedB n = true := by
  induction items with
  | nil => intro n h; exact absurd h (List.not_mem_nil n)
  | cons it items ih =>
      intro n h
      cases it with
      | txt s => exact ih n h
      | openT m a =>
          cases hall : allowedB m with
          | false => rw [openNamesOf, hall] at h; exact ih n (by simpa using h)
          | true =>
              rw [openNamesOf, hall] at h
              simp only [if_true, List.mem_cons] at h
              rcases h with h | h
              · rw [h]; exact hall
              · exact ih n h
      | closeT m => exact ih n h

theorem wf_closeT_of_allowed {n : List Char} (h : allowedB n = true) :
    itemWFB (Item.closeT n) = true := by
  rw [allowedB] at h
  obtain ⟨hne, hlow⟩ := allowed_ne_nil_all_lower n (of_decide_eq_true h)
  simp [itemWFB, hlow, beq_eq_false_iff_ne, hne]

theorem wf_closers (M : List (List Char)) (h : ∀ n ∈ M, allowedB n = true) :
    wfItemsB (M.map Item.closeT) = true := by
  rw [wfItemsB, List.all_eq_true]
  intro it hit
  rw [List.mem_map] at hit
  obtain ⟨n, hn, rfl⟩ := hit
  exact wf_closeT_of_allowed (h n hn)

theorem filterMap_keep (items : List Item) :
    (keep items).filterMap itemTok = (openPairsOf items).map fun p => Tok.openTok p.1 p.2 := by
  induction items with
  | nil => rfl
  | cons it items ih =>
      cases it with
      | txt s => simpa [keep, List.filter_cons, keepB, openPairsOf, List.filterMap_cons, itemTok]
          using ih
      | openT n a =>
          cases hall : allowedB n <;>
            simp [keep, List.filter_cons, keepB, hall, openPairsOf, List.filterMap_cons,
              itemTok] <;> exact ih
      | closeT n => simpa [keep, List.filter_cons, keepB, openPairsOf] using ih

theorem filterMap_closers (M : List (List Char)) :
    (M.map Item.closeT).filterMap itemTok = M.map Tok.closeTok := by
  induction M with
  | nil => rfl
  | cons n M ih => simpa [List.filterMap_cons, itemTok] using ih

theorem names_pairs (items : List Item) :
    openNamesOf items = (openPairsOf items).map Prod.fst := by
  induction items with
  | nil => rfl
  | cons it items ih =>
      cases it with
      | txt s => simpa [openNamesOf, openPairsOf] using ih
      | openT n a =>
          cases hall : allowedB n <;> simp [openNamesOf, openPairsOf, hall] <;> exact ih
      | closeT n => simpa [openNamesOf, openPairsOf] using ih

theorem pairs_allowed (items : List Item) :
    ∀ p ∈ openPairsOf items, allowedB p.1 = true := by
  induction items with
  | nil => intro p h; exact absurd h (List.not_mem_nil p)
  | cons it items ih =>
      intro p h
      cases it with
      | txt s => exact ih p h
      | openT m a =>
          cases hall : allowedB m with
          | false => rw [openPairsOf, hall] at h; exact ih p (by simpa using h)
          | true =>
              rw [openPairsOf, hall] at h
              simp only [if_true, List.mem_cons] at h
              rcases h with h | h
              · rw [h]; exact hall
              · exact ih p h
      | closeT m => exact ih p h

theorem clean_render_items (items : List Item) (h : wfItemsB items = true) :
    clean (render items) =
      render (keep items ++ ((openNamesOf items).reverse.map Item.closeT)) := by
  rw [clean_render items h, render_append, closersFor, closersOf_render]

theorem wf_with_closers (items : List Item) (h : wfItemsB items = true) :
    wfItemsB (keep items ++ ((openNamesOf items).reverse.map Item.closeT)) = true := by
  rw [wfItemsB_append, wf_keep h, Bool.true_and]
  apply wf_closers
  intro n hn
  exact names_allowed items n (List.mem_reverse.mp hn)

theorem tagTokens_clean_render (items : List Item) (h : wfItemsB items = true) :
    tagTokens (clean (render items)) =
      ((openPairsOf items).map fun p => Tok.openTok p.1 p.2) ++
        (((openPairsOf items).map Prod.fst).reverse.map Tok.closeTok) := by
  rw [clean_render_items items h, tagTokens_render _ (wf_with_closers items h)]
  rw [List.filterMap_append, filterMap_keep, filterMap_closers, names_pairs]

/-- C2 (counterexample): the input `"<i><b x="` has a mismatched/missing
closing structure among allow-listed tags (its token sequence is
unbalanced), yet the sanitized output `"<i><b x=</i>"` is not balanced: the
appended `</i>` is swallowed into the attribute text of the dangling
`<b x=`, leaving one `b` opening tag with no closing tag. -/
theorem claim2_counterexample :
    balToks (tagTokens (String.toList "<i><b x=")) = false ∧
    clean (String.toList "<i><b x=") = String.toList "<i><b x=</i>" ∧
    countOpen (String.toList "b") (tagTokens (clean (String.toList "<i><b x="))) = 1 ∧
    countClose (String.toList "b") (tagTokens (clean (String.toList "<i><b x="))) = 0 ∧
    balToks (tagTokens (clean (String.toList "<i><b x="))) = false := by decide

/-- C2 (amended): restricted to inputs built from complete tags and plain
text free of angle brackets, the claim holds: whenever such an input's
allow-listed tags are mismatched or unclosed (and indeed for every such
input), the sanitized output has equal opening/closing counts for every
allow-listed name and is strictly stack-balanced. -/
theorem claim2_amended (items : List Item) (h1 : wfItemsB items = true)
    (h2 : itemsBalanced items = false) :
    countsBalanced (tagTokens (clean (render items))) = true ∧
    balToks (tagTokens (clean (render items))) = true := by
  constructor
  · rw [countsBalanced, List.all_eq_true]
    intro t _
    rw [tagTokens_clean_render items h1]
    exact beq_iff_eq.mpr (counts_opens_closes t (openPairsOf items))
  · rw [balToks, tagTokens_clean_render items h1]
    rw [foldl_balStep_opens_closes (openPairsOf items) []]
    simp

/-- C2 (witness): the single unclosed tag `<b>` is in the amended claim's
domain and its sanitized output is balanced. -/
theorem claim2_witness :
    wfItemsB [Item.openT (String.toList "b") []] = true ∧
    itemsBalanced [Item.openT (String.toList "b") []] = false ∧
    countsBalanced (tagTokens (clean (render [Item.openT (String.toList "b") []]))) = true ∧
    balToks (tagTokens (clean (render [Item.openT (String.toList "b") []]))) = true := by
  refine ⟨by decide, by decide, ?_, ?_⟩
  · exact (claim2_amended [Item.openT (String.toList "b") []] (by decide) (by decide)).1
  · exact (claim2_amended [Item.openT (String.toList "b") []] (by decide) (by decide)).2

/-- C3: on strings consisting of balanced allow-listed tags (with optional
angle-bracket-free text), `HTMLCleaner.clean` is idempotent. -/
theorem claim3_idempotent (items : List Item) (h1 : wfItemsB items = true)
    (h2 : itemsBalanced items = true) :
    clean (clean (render items)) = clean (render items) := by
  have e1 := clean_render_items items h1
  rw [e1, clean_render_items _ (wf_with_closers items h1)]
  rw [keep_append, keep_keep, keep_closers, List.append_nil]
  rw [openNamesOf_append, openNamesOf_keep, openNamesOf_closers, List.append_nil]

/-- C3 (witness): idempotence at the balanced input `<b>x</b>`. -/
theorem claim3_witness :
    wfItemsB [Item.openT (String.toList "b") [], Item.txt (String.toList "x"),
      Item.closeT (String.toList "b")] = true ∧
    itemsBalanced [Item.openT (String.toList "b") [], Item.txt (String.toList "x"),
      Item.closeT (String.toList "b")] = true ∧
    clean (clean (render [Item.openT (String.toList "b") [], Item.txt (String.toList "x"),
      Item.closeT (String.toList "b")])) =
      clean (render [Item.openT (String.toList "b") [], Item.txt (String.toList "x"),
        Item.closeT (String.toList "b")]) := by
  refine ⟨by decide, by decide, ?_⟩
  exact claim3_idempotent
    [Item.openT (String.toList "b") [], Item.txt (String.toList "x"),
      Item.closeT (String.toList "b")] (by decide) (by decide)

/-- C4 (counterexample): the input `"<div></b>x"` contains a tag outside the
allow-list (`div`) and the allow-listed closing tag `</b>`; the output is
plain `"x"` with no tags at all, so the allow-listed tag did not survive —
refuting the claim that allow-listed tags survive verbatim. -/
theorem claim4_counterexample :
    clean (String.toList "<div></b>x") = String.toList "x" ∧
    tagTokens (String.toList "<div></b>x") =
      [Tok.openTok (String.toList "div") [], Tok.closeTok (String.toList "b")] ∧
    tagTokens (clean (String.toList "<div></b>x")) = [] := by decide

/-- C4 (amended): for well-formed ASCII inputs containing a tag outside the
allow-list, no disallowed tag name appears as a tag in the output — every
output token carries an allow-listed name — and the allow-listed opening
tags survive in order with their attribute text verbatim, while allow-listed
closing tags are also removed by the stripping pass and are re-created only
by the final auto-close step.  The ASCII restriction keeps the regex's `\b`
(Unicode in the source) exactly modelled: with a non-ASCII word character
right after an allow-listed name (e.g. `<bд>`) the program strips the tag. -/
theorem claim4_amended (items : List Item) (h1 : wfItemsB items = true)
    (h0 : items.all itemASCIIB = true)
    (h2 : hasDisallowedB items = true) :
    tagTokens (clean (render items)) =
      ((openPairsOf items).map fun p => Tok.openTok p.1 p.2) ++
        (((openPairsOf items).map Prod.fst).reverse.map Tok.closeTok) ∧
    (tagTokens (clean (render items))).all (fun tok => allowedB (tokName tok)) = true := by
  have he := tagTokens_clean_render items h1
  refine ⟨he, ?_⟩
  rw [he, List.all_append]
  have hopen : ((openPairsOf items).map fun p => Tok.openTok p.1 p.2).all
      (fun tok => allowedB (tokName tok)) = true := by
    rw [List.all_eq_true]
    intro tok htok
    rw [List.mem_map] at htok
    obtain ⟨p, hp, rfl⟩ := htok
    exact pairs_allowed items p hp
  have hclose : (((openPairsOf items).map Prod.fst).reverse.map Tok.closeTok).all
      (fun tok => allowedB (tokName tok)) = true := by
    rw [List.all_eq_true]
    intro tok htok
    rw [List.mem_map] at htok
    obtain ⟨n, hn, rfl⟩ := htok
    rw [List.mem_reverse, List.mem_map] at hn
    obtain ⟨p, hp, rfl⟩ := hn
    exact pairs_allowed items p hp
  rw [hopen, hclose]
  rfl

/-- C4 (witness): an input holding a disallowed `<div>` and an allow-listed
`<b>`; the output's tokens are exactly the surviving `<b>` and its
auto-close, all names allow-listed. -/
theorem claim4_witness :
    wfItemsB [Item.openT (String.toList "div") [], Item.openT (String.toList "b") []] = true ∧
    ([Item.openT (String.toList "div") [],
      Item.openT (String.toList "b") []].all itemASCIIB) = true ∧
    hasDisallowedB [Item.openT (String.toList "div") [],
      Item.openT (String.toList "b") []] = true ∧
    tagTokens (clean (render [Item.openT (String.toList "div") [],
        Item.openT (String.toList "b") []])) =
      ((openPairsOf [Item.openT (String.toList "div") [],
          Item.openT (String.toList "b") []]).map fun p => Tok.openTok p.1 p.2) ++
        (((openPairsOf [Item.openT (String.toList "div") [],
            Item.openT (String.toList "b") []]).map Prod.fst).reverse.map Tok.closeTok) ∧
    (tagTokens (clean (render [Item.openT (String.toList "div") [],
        Item.openT (String.toList "b") []]))).all
      (fun tok => allowedB (tokName tok)) = true := by
  refine ⟨by decide, by decide, by decide, ?_, ?_⟩
  · exact (claim4_amended [Item.openT (String.toList "div") [],
      Item.openT (String.toList "b") []] (by decide) (by decide) (by decide)).1
  · exact (claim4_amended [Item.openT (String.toList "div") [],
      Item.openT (String.toList "b") []] (by decide) (by decide) (by decide)).2

/-! ### Claims about the retrieval, store, parser and question paths -/

/-- C5 (counterexample): with no "ru" caption, an "en" caption whose fetch
returns "hello", and a working translation capability returning "privet",
`_get_captions` returns the untranslated "hello", not the translation —
refuting the claim that the fallback transcript is translated into the
target language. -/
theorem claim5_counterexample :
    getCaptions envC5 = (some "hello", none) ∧
    envC5.translate (envC5.fetchText 3) "ru" = "privet" ∧
    (getCaptions envC5).1 ≠ some (envC5.translate (envC5.fetchText 3) "ru") := by decide

/-- C5 (amended): when no "ru" caption is listed but an "en" caption is and
its fetch succeeds, `_get_captions` returns the fallback caption text
exactly as fetched, with no translation applied — the result is unchanged
under any replacement of the translation capability. -/
theorem claim5_amended (env : CapEnv) (cap : String × Nat) (tr : String → String → String)
    (h1 : env.exc = none) (h2 : env.listStatus = 200)
    (h3 : env.items.find? (fun it => it.1 == "ru") = none)
    (h4 : env.items.find? (fun it => it.1 == "en") = some cap)
    (h5 : env.fetchStatus cap.2 = 200) :
    getCaptions env = (some (env.fetchText cap.2), none) ∧
    getCaptions (envWithTranslate env tr) = getCaptions env := by
  constructor
  · simp [getCaptions, getCaptionsLog, h1, h2, h3, h4, h5]
  · rfl

/-- C5 (witness): the amended claim instantiated at the concrete
environment of the counterexample. -/
theorem claim5_witness :
    envC5.exc = none ∧ envC5.listStatus = 200 ∧
    envC5.items.find? (fun it => it.1 == "ru") = none ∧
    envC5.items.find? (fun it => it.1 == "en") = some ("en", 3) ∧
    envC5.fetchStatus 3 = 200 ∧
    (getCaptions envC5 = (some (envC5.fetchText 3), none) ∧
      getCaptions (envWithTranslate envC5 (fun a _ => a)) = getCaptions envC5) := by
  refine ⟨rfl, rfl, by decide, by decide, rfl, ?_⟩
  exact claim5_amended envC5 ("en", 3) (fun a _ => a) rfl rfl (by decide) (by decide) rfl

/-- C6 (counterexample): a captions-disabled video (listing succeeds with an
empty item list) and a video whose captions exist in neither "ru" nor "en"
produce the identical error value, so the reason code does not distinguish
"disabled" from "not found" — refuting the claimed three-way distinction. -/
theorem claim6_counterexample :
    getCaptions envDisabled = (none, some "Субтитры не найдены") ∧
    getCaptions envNoRuEn = (none, some "Субтитры не найдены") ∧
    getCaptions envDisabled = getCaptions envNoRuEn := by decide

/-- C6 (amended): `_get_captions` performs exactly one listing request and at
most one fetch request — no stage is ever retried — and every failure
surfaces as one of the terminal reason values: the not-found message, an
API-error message with the listing status, a fetch-error message with the
fetch status, or the raised exception's text; a captions-disabled condition
has no distinct reason of its own. -/
theorem claim6_amended (env : CapEnv) :
    ((getCaptionsLog env).2 = [ApiCall.listing] ∨
      ∃ c, (getCaptionsLog env).2 = [ApiCall.listing, ApiCall.fetch c]) ∧
    ((getCaptions env).2 = none ∨
      (getCaptions env).2 = some "Субтитры не найдены" ∨
      (∃ n : Nat, (getCaptions env).2 = some ("Ошибка API: " ++ toString n)) ∨
      (∃ n : Nat, (getCaptions env).2 =
        some ("Ошибка получения текста субтитров: " ++ toString n)) ∨
      (∃ m, env.exc = some m ∧ (getCaptions env).2 = some m)) := by
  cases hexc : env.exc with
  | some m =>
      constructor
      · left
        simp [getCaptionsLog, hexc]
      · right; right; right; right
        exact ⟨m, rfl, by simp [getCaptions, getCaptionsLog, hexc]⟩
  | none =>
      by_cases hls : (env.listStatus == 200) = true
      case neg =>
        constructor
        · left
          simp [getCaptionsLog, hexc, hls]
        · right; right; left
          exact ⟨env.listStatus, by simp [getCaptions, getCaptionsLog, hexc, hls]⟩
      case pos =>
        cases hru : env.items.find? (fun it => it.1 == "ru") with
        | some cap =>
            by_cases hfs : (env.fetchStatus cap.2 == 200) = true
            · constructor
              · right
                exact ⟨cap.2, by simp [getCaptionsLog, hexc, hls, hru, hfs]⟩
              · left
                simp [getCaptions, getCaptionsLog, hexc, hls, hru, hfs]
            · constructor
              · right
                exact ⟨cap.2, by simp [getCaptionsLog, hexc, hls, hru, hfs]⟩
              · right; right; right; left
                exact ⟨env.fetchStatus cap.2,
                  by simp [getCaptions, getCaptionsLog, hexc, hls, hru, hfs]⟩
        | none =>
            cases hen : env.items.find? (fun it => it.1 == "en") with
            | some cap =>
                by_cases hfs : (env.fetchStatus cap.2 == 200) = true
                · constructor
                  · right
                    exact ⟨cap.2, by simp [getCaptionsLog, hexc, hls, hru, hen, hfs]⟩
                  · left
                    simp [getCaptions, getCaptionsLog, hexc, hls, hru, hen, hfs]
                · constructor
                  · right
                    exact ⟨cap.2, by simp [getCaptionsLog, hexc, hls, hru, hen, hfs]⟩
                  · right; right; right; left
                    exact ⟨env.fetchStatus cap.2,
                      by simp [getCaptions, getCaptionsLog, hexc, hls, hru, hen, hfs]⟩
            | none =>
                constructor
                · left
                  simp [getCaptionsLog, hexc, hls, hru, hen]
                · right; left
                  simp [getCaptions, getCaptionsLog, hexc, hls, hru, hen]

/-- C7: the per-conversation store returns "absent" for a conversation never
set, and a second `set` for the same conversation unconditionally replaces
the first — `get` returns exactly the latest pair, with no trace of the
earlier transcript. -/
theorem claim7_store :
    (∀ c, getCtx emptyStore c = (none, none)) ∧
    (∀ (s : Store) (c : Nat) (t1 r1 t2 r2 : String),
      getCtx (setCtx (setCtx s c t1 r1) c t2 r2) c = (some t2, some r2)) := by
  constructor
  · intro c
    rfl
  · intro s c t1 r1 t2 r2
    simp [getCtx, setCtx]

/-- C8: a question arriving in a conversation with no stored transcript is
answered with the fixed prompt to submit a video first, and no answer
generation is attempted. -/
theorem claim8_no_transcript (ans : String → String → String) (s : Store) (c : Nat) (q : String)
    (h : (getCtx s c).1 = none) :
    processQuestion ans s c q = (noTranscriptReply, false) := by
  simp [processQuestion, h]

/-- C8 (witness): the claim at the empty store. -/
theorem claim8_witness :
    (getCtx emptyStore 0).1 = none ∧
    processQuestion (fun _ _ => "") emptyStore 0 "hi" = (noTranscriptReply, false) :=
  ⟨rfl, claim8_no_transcript (fun _ _ => "") emptyStore 0 "hi" rfl⟩

/-- C9: `extract_video_id` finds `dQw4w9WgXcQ` in the short link and in the
`watch?v=` form, and finds nothing in a plain question. -/
theorem claim9_extract_id :
    extractVideoId "https://youtu.be/dQw4w9WgXcQ" = some "dQw4w9WgXcQ" ∧
    extractVideoId "watch?v=dQw4w9WgXcQ&t=5s" = some "dQw4w9WgXcQ" ∧
    extractVideoId "hello, how are you?" = none := by decide

theorem cleanTranscript_blank : ∀ (entries : List (Option String)),
    entries.all entryBlankB = true → cleanTranscript entries = "" := by
  intro entries
  induction entries with
  | nil => intro _; rfl
  | cons e es ih =>
      intro h
      simp only [List.all_cons, Bool.and_eq_true] at h
      cases e with
      | none =>
          have hx : cleanTranscript (none :: es) = cleanTranscript es := by
            simp [cleanTranscript, List.filterMap_cons]
          rw [hx]
          exact ih h.2
      | some t =>
          have hb : pyStrip t = "" := by
            have hb0 : (pyStrip t == "") = true := by simpa [entryBlankB] using h.1
            exact beq_iff_eq.mp hb0
          have hx : cleanTranscript (some t :: es) = cleanTranscript es := by
            simp [cleanTranscript, List.filterMap_cons, hb]
          rw [hx]
          exact ih h.2

/-- C10: when every caption entry is empty or whitespace-only, the normalized
transcript is the empty string; storing it leaves the conversation in a
state where every question is answered with the fixed submit-a-video prompt
and no generation is attempted — indistinguishable, at the question
interface, from never having processed a video. -/
theorem claim10_empty_transcript (entries : List (Option String))
    (ans : String → String → String) (s : Store) (c : Nat) (r q : String)
    (h : entries.all entryBlankB = true) :
    cleanTranscript entries = "" ∧
    processQuestion ans (setCtx s c (cleanTranscript entries) r) c q =
      (noTranscriptReply, false) := by
  have hct := cleanTranscript_blank entries h
  refine ⟨hct, ?_⟩
  rw [hct]
  simp [processQuestion, getCtx, setCtx]

/-- C10 (witness): whitespace-only caption entries at a concrete store. -/
theorem claim10_witness :
    ([some "  ", none, some "\t"] : List (Option String)).all entryBlankB = true ∧
    (cleanTranscript [some "  ", none, some "\t"] = "" ∧
      processQuestion (fun _ _ => "a") (setCtx emptyStore 5
          (cleanTranscript [some "  ", none, some "\t"]) "vid") 5 "q" =
        (noTranscriptReply, false)) :=
  ⟨by decide,
   claim10_empty_transcript [some "  ", none, some "\t"] (fun _ _ => "a") emptyStore 5 "vid" "q"
     (by decide)⟩
